import Mathlib

/-!
Shallow embedding of the merezhka single-page client (src/main.rs) and proofs
of the specified properties of its thread-reconstruction core, its fetch
pipeline, its route-parameter handling and its URL interpreter.
-/

namespace Merezhka

/-- `Account` from src/main.rs lines 8-13. -/
structure Account where
  id : String
  username : String
  display_name : String
deriving DecidableEq, Repr

/-- `Status` from src/main.rs lines 15-21. -/
structure Status where
  id : String
  in_reply_to_id : Option String
  account : Account
  content : String
deriving DecidableEq, Repr

/-- `Context` from src/main.rs lines 23-26. -/
structure Context where
  descendants : List Status
deriving DecidableEq, Repr

/-- The partition predicate of src/main.rs line 58-60:
`s.account.id == *account_id && s.in_reply_to_id.as_ref().unwrap() == &last.id`.
`none` models the panic of `Option::unwrap` on an absent `in_reply_to_id`;
the `&&` short-circuit means the unwrap is only reached when the account id
matches. -/
def matchPred (accountId lastId : String) (s : Status) : Option Bool :=
  if s.account.id = accountId then
    match s.in_reply_to_id with
    | none => none
    | some r => some (decide (r = lastId))
  else
    some false

/-- `Vec::partition` over a predicate that can panic: elements are examined in
input order, each sent to the matched or the unmatched side, both sides keeping
their relative order; `none` propagates a panic. -/
def partitionPanic (p : Status → Option Bool) : List Status → Option (List Status × List Status)
  | [] => some ([], [])
  | s :: rest =>
    match p s with
    | none => none
    | some b =>
      match partitionPanic p rest with
      | none => none
      | some (m, u) => some (cond b (s :: m, u) (m, s :: u))

/-- Outcome of running the reconstruction loop of src/main.rs lines 54-68:
`panic` models the `unwrap` panic on a missing reply target, `timeout` models
running out of loop-iteration fuel, `ok` is normal termination via `break`. -/
inductive LoopResult where
  | panic : LoopResult
  | timeout : LoopResult
  | ok : List Status → LoopResult
deriving DecidableEq, Repr

/-- The `loop` of src/main.rs lines 54-68. `thread` is the accumulated result,
`last` the last element of `thread` (the `thread.last().unwrap()` of line 56,
safe because `thread` starts non-empty and only grows), `descendants` the
remaining pool. Fuel counts loop-body executions. -/
def threadLoop (accountId : String) : Nat → List Status → Status → List Status → LoopResult
  | 0, _, _, _ => .timeout
  | fuel + 1, thread, last, descendants =>
    match partitionPanic (matchPred accountId last.id) descendants with
    | none => .panic
    | some (matched, remaining) =>
      if matched.isEmpty then
        .ok thread
      else
        threadLoop accountId fuel (thread ++ matched) (matched.getLastD last) remaining

/-- The pure part of `fetch_thread` (src/main.rs lines 48-71): reconstruct the
self-thread from the fetched root status and its context descendants. The fuel
`descendants.length + 1` is enough for the loop to reach its `break` (proved
below), mirroring that the Rust loop is unbounded. -/
def fetch_thread (status : Status) (descendants : List Status) : LoopResult :=
  threadLoop status.account.id (descendants.length + 1) [status] status descendants

/-- `fetch_status_and_context` (src/main.rs lines 34-46), with the network and
the JSON decoding abstracted: `sendStatus` and `sendContext` are the outcomes
of the two HTTP requests, `decodeStatus` and `decodeContext` the outcomes of
`.json::<Status>()` and `.json::<Context>()` on the respective responses.
The two `try_join` calls propagate the first failure via `?`. -/
def fetch_status_and_context {E R : Type} (sendStatus sendContext : Except E R)
    (decodeStatus : R → Except E Status) (decodeContext : R → Except E Context) :
    Except E (Status × Context) :=
  match sendStatus with
  | .error e => .error e
  | .ok s =>
    match sendContext with
    | .error e => .error e
    | .ok c =>
      match decodeStatus s with
      | .error e => .error e
      | .ok sj =>
        match decodeContext c with
        | .error e => .error e
        | .ok cj => .ok (sj, cj)

/-- `IdParams` from src/main.rs lines 28-32. -/
structure IdParams where
  host : Option String
  id : Option String
deriving DecidableEq, Repr

/-- The `host` closure of the `Threads` component (src/main.rs lines 115-122):
`params.as_ref().map(|p| p.host.clone()).unwrap_or_else(|_| Some("mastodon.social"))`.
The default only replaces the `Err` branch of the params result. -/
def hostParam {E : Type} (params : Except E IdParams) : Option String :=
  match params with
  | .ok p => p.host
  | .error _ => some "mastodon.social"

/-- The `id` closure of the `Threads` component (src/main.rs lines 124-131). -/
def idParam {E : Type} (params : Except E IdParams) : Option String :=
  match params with
  | .ok p => p.id
  | .error _ => some "1"

/-- The argument computation of the `Threads` resource closure
(src/main.rs lines 135-138): `id().unwrap()` then `host().unwrap()`;
`none` models the panic of `unwrap` on an absent parameter, `some (host, id)`
the pair actually passed to `fetch_thread`. -/
def threadsFetchArgs {E : Type} (params : Except E IdParams) : Option (String × String) :=
  match idParam params with
  | none => none
  | some i =>
    match hostParam params with
    | none => none
    | some h => some (h, i)

/-- Host and path-segment extraction of the external `url` crate, modelled for
absolute `https` URLs: `url::Url::parse` followed by `host_str()` and
`path_segments()` (src/main.rs lines 78-79 delegate to this library).
`path_segments` on an https URL always yields at least one segment (the empty
segment for an empty path), and `String.splitOn` never returns `[]`. -/
def parseHttpsUrl (u : String) : Option (String × List String) :=
  let cs := u.toList
  if cs.take 8 = "https://".toList then
    let rest := cs.drop 8
    let host := rest.takeWhile (fun c => c ≠ '/')
    if host = [] then none
    else
      let path := rest.drop host.length
      if path = [] then some (⟨host⟩, [""])
      else some (⟨host⟩, ((path.drop 1).splitOn '/').map (fun seg => ⟨seg⟩))
  else none

/-- The URL-interpreting effect of the `Home` component (src/main.rs lines
77-91): parse the pasted URL; if a host and path segments exist, take the last
segment as the candidate id; navigate to `/{host}/{id}` exactly when no
character of the id is a non-decimal digit. `some (host, id)` is a triggered
navigation, `none` is no navigation. -/
def homeEffect (u : String) : Option (String × String) :=
  match parseHttpsUrl u with
  | none => none
  | some (host, segments) =>
    let id := segments.getLastD ""
    let id_is_non_numeric := id.toList.any (fun c => !(c.isDigit))
    if !id_is_non_numeric then some (host, id) else none

/-- Each element of `rest` replies to some element occurring strictly before it
in `pre ++ rest`: the shape of the appended part of a reconstructed thread. -/
def repliesWithin (pre : List Status) : List Status → Prop
  | [] => True
  | s :: rest => (∃ t ∈ pre, s.in_reply_to_id = some t.id) ∧ repliesWithin (pre ++ [s]) rest

/-! ### Helper lemmas -/

theorem matchPred_eq_true {accountId lastId : String} {s : Status}
    (h : matchPred accountId lastId s = some true) :
    s.account.id = accountId ∧ s.in_reply_to_id = some lastId := by
  unfold matchPred at h
  by_cases ha : s.account.id = accountId
  · rw [if_pos ha] at h
    cases hr : s.in_reply_to_id with
    | none => rw [hr] at h; exact absurd h (by simp)
    | some r =>
      rw [hr] at h
      simp only [Option.some.injEq, decide_eq_true_eq] at h
      exact ⟨ha, by rw [h]⟩
  · rw [if_neg ha] at h
    exact absurd h (by simp)

theorem partitionPanic_perm {p : Status → Option Bool} {l m u : List Status}
    (h : partitionPanic p l = some (m, u)) : l.Perm (m ++ u) := by
  induction l generalizing m u with
  | nil =>
    simp only [partitionPanic, Option.some.injEq, Prod.mk.injEq] at h
    rw [← h.1, ← h.2]
    exact List.Perm.refl _
  | cons s rest ih =>
    simp only [partitionPanic] at h
    cases hp : p s with
    | none => rw [hp] at h; exact absurd h (by simp)
    | some b =>
      rw [hp] at h
      cases hr : partitionPanic p rest with
      | none => rw [hr] at h; exact absurd h (by simp)
      | some mu =>
        obtain ⟨m', u'⟩ := mu
        rw [hr] at h
        have hperm := ih hr
        cases b with
        | true =>
          simp only [cond, Option.some.injEq, Prod.mk.injEq] at h
          rw [← h.1, ← h.2]
          exact hperm.cons s
        | false =>
          simp only [cond, Option.some.injEq, Prod.mk.injEq] at h
          rw [← h.1, ← h.2]
          exact (hperm.cons s).trans List.perm_middle.symm

theorem partitionPanic_length {p : Status → Option Bool} {l m u : List Status}
    (h : partitionPanic p l = some (m, u)) : m.length + u.length = l.length := by
  have := (partitionPanic_perm h).length_eq
  simp only [List.length_append] at this
  omega

theorem partitionPanic_matched_mem {p : Status → Option Bool} {l m u : List Status}
    (h : partitionPanic p l = some (m, u)) : ∀ s ∈ m, p s = some true := by
  induction l generalizing m u with
  | nil =>
    simp only [partitionPanic, Option.some.injEq, Prod.mk.injEq] at h
    rw [← h.1]
    intro s hs
    exact absurd hs (List.not_mem_nil s)
  | cons s rest ih =>
    simp only [partitionPanic] at h
    cases hp : p s with
    | none => rw [hp] at h; exact absurd h (by simp)
    | some b =>
      rw [hp] at h
      cases hr : partitionPanic p rest with
      | none => rw [hr] at h; exact absurd h (by simp)
      | some mu =>
        obtain ⟨m', u'⟩ := mu
        rw [hr] at h
        cases b with
        | true =>
          simp only [cond, Option.some.injEq, Prod.mk.injEq] at h
          rw [← h.1]
          intro t ht
          rcases List.mem_cons.mp ht with rfl | ht'
          · exact hp
          · exact ih hr t ht'
        | false =>
          simp only [cond, Option.some.injEq, Prod.mk.injEq] at h
          rw [← h.1]
          exact fun t ht => ih hr t ht

theorem partitionPanic_filter {p : Status → Option Bool} {l m u : List Status}
    (h : partitionPanic p l = some (m, u)) :
    m = l.filter (fun s => p s == some true) ∧
      u = l.filter (fun s => p s == some false) := by
  induction l generalizing m u with
  | nil =>
    simp only [partitionPanic, Option.some.injEq, Prod.mk.injEq] at h
    simp [← h.1, ← h.2]
  | cons s rest ih =>
    simp only [partitionPanic] at h
    cases hp : p s with
    | none => rw [hp] at h; exact absurd h (by simp)
    | some b =>
      rw [hp] at h
      cases hr : partitionPanic p rest with
      | none => rw [hr] at h; exact absurd h (by simp)
      | some mu =>
        obtain ⟨m', u'⟩ := mu
        rw [hr] at h
        obtain ⟨hm', hu'⟩ := ih hr
        cases b with
        | true =>
          simp only [cond, Option.some.injEq, Prod.mk.injEq] at h
          constructor
          · rw [← h.1, List.filter_cons, if_pos (by simp [hp]), hm']
          · rw [← h.2, List.filter_cons, if_neg (by simp [hp]), hu']
        | false =>
          simp only [cond, Option.some.injEq, Prod.mk.injEq] at h
          constructor
          · rw [← h.1, List.filter_cons, if_neg (by simp [hp]), hm']
          · rw [← h.2, List.filter_cons, if_pos (by simp [hp]), hu']

theorem getLastD_mem {l : List Status} (h : l ≠ []) (d : Status) : l.getLastD d ∈ l := by
  induction l generalizing d with
  | nil => exact absurd rfl h
  | cons s rest ih =>
    rw [List.getLastD_cons]
    cases hr : rest with
    | nil => subst hr; simp [List.getLastD]
    | cons t rest' =>
      subst hr
      exact List.mem_cons_of_mem s (ih (List.cons_ne_nil t rest') s)

theorem repliesWithin_append {matched thread rest : List Status} {last : Status}
    (hlast : last ∈ thread) (hm : ∀ m ∈ matched, m.in_reply_to_id = some last.id)
    (hrest : repliesWithin (thread ++ matched) rest) :
    repliesWithin thread (matched ++ rest) := by
  induction matched generalizing thread with
  | nil => simpa using hrest
  | cons m ms ih =>
    simp only [List.cons_append, repliesWithin]
    refine ⟨⟨last, hlast, hm m (List.mem_cons_self m ms)⟩, ?_⟩
    apply ih (List.mem_append_left _ hlast) (fun m' hm' => hm m' (List.mem_cons_of_mem m hm'))
    rw [List.append_assoc]
    simpa using hrest

theorem isEmpty_false_ne_nil {l : List Status} (h : l.isEmpty = false) : l ≠ [] := by
  cases l with
  | nil => simp [List.isEmpty] at h
  | cons a l' => exact List.cons_ne_nil a l'

/-- Main loop invariant: a successful run of the reconstruction loop extends
the accumulated thread with a batch sequence `rest` drawn (as a
sub-permutation) from the remaining descendants, all authored by the matched
account, each replying to an element strictly before it. -/
theorem threadLoop_ok_spec {accountId : String} {fuel : Nat}
    {thread : List Status} {last : Status} {descendants out : List Status}
    (hlast : last ∈ thread)
    (h : threadLoop accountId fuel thread last descendants = .ok out) :
    ∃ rest, out = thread ++ rest ∧ rest.Subperm descendants ∧
      (∀ s ∈ rest, s.account.id = accountId) ∧ repliesWithin thread rest := by
  induction fuel generalizing thread last descendants out with
  | zero => exact absurd h (by simp [threadLoop])
  | succ fuel ih =>
    simp only [threadLoop] at h
    split at h
    · exact absurd h (by simp)
    · rename_i matched remaining hp
      split at h
      · simp only [LoopResult.ok.injEq] at h
        refine ⟨[], by rw [← h, List.append_nil], List.nil_subperm, ?_, trivial⟩
        intro s hs
        exact absurd hs (List.not_mem_nil s)
      · rename_i hme
        have hne : matched ≠ [] := by
          intro hnil
          exact hme (by simp [hnil])
        have hmem : ∀ m ∈ matched, matchPred accountId last.id m = some true :=
          partitionPanic_matched_mem hp
        have hlast' : matched.getLastD last ∈ thread ++ matched :=
          List.mem_append_right thread (getLastD_mem hne last)
        obtain ⟨rest', hout, hsub, hauth, hrw⟩ := ih hlast' h
        refine ⟨matched ++ rest', ?_, ?_, ?_, ?_⟩
        · rw [hout, List.append_assoc]
        · obtain ⟨l', hl', hs'⟩ := hsub
          have hperm : (matched ++ l').Perm (matched ++ rest') := hl'.append_left matched
          have hsubl : List.Sublist (matched ++ l') (matched ++ remaining) := hs'.append_left matched
          have h1 : (matched ++ rest').Subperm (matched ++ remaining) := ⟨matched ++ l', hperm, hsubl⟩
          exact h1.trans (partitionPanic_perm hp).symm.subperm
        · intro s hs
          rcases List.mem_append.mp hs with hs | hs
          · exact (matchPred_eq_true (hmem s hs)).1
          · exact hauth s hs
        · exact repliesWithin_append hlast
            (fun m hm => (matchPred_eq_true (hmem m hm)).2) hrw

/-- The loop never exhausts `|descendants| + 1` units of fuel: every iteration
that continues strictly shrinks the remaining pool. -/
theorem threadLoop_ne_timeout {accountId : String} {fuel : Nat}
    {thread : List Status} {last : Status} {descendants : List Status}
    (hfuel : descendants.length < fuel) :
    threadLoop accountId fuel thread last descendants ≠ .timeout := by
  induction fuel generalizing thread last descendants with
  | zero => omega
  | succ fuel ih =>
    simp only [threadLoop]
    split
    · simp
    · rename_i matched remaining hp
      split
      · simp
      · rename_i hme
        have hne : matched ≠ [] := by
          intro hnil
          exact hme (by simp [hnil])
        have hlen := partitionPanic_length hp
        have hpos : 0 < matched.length := List.length_pos.mpr hne
        refine ih ?_
        omega

theorem not_any_not_eq_all (p : Char → Bool) (l : List Char) :
    (!(l.any fun c => !(p c))) = l.all p := by
  induction l with
  | nil => rfl
  | cons c cs ih => simp [List.any_cons, List.all_cons, Bool.not_or, ih]

/-! ### Test fixtures -/

def accA : Account := ⟨"A", "alice", "Alice"⟩

def accB : Account := ⟨"B", "bob", "Bob"⟩

def rootPost : Status := ⟨"1", none, accA, "root"⟩

def reply2 : Status := ⟨"2", some "1", accA, "second"⟩

def reply3chain : Status := ⟨"3", some "2", accA, "third"⟩

def reply4other : Status := ⟨"4", some "1", accB, "by someone else"⟩

def reply3flat : Status := ⟨"3", some "1", accA, "also replying to the root"⟩

def replyNoTarget : Status := ⟨"2", none, accA, "malformed entry"⟩

/-! ### Claims -/

/-- C1: the claim says a descendant whose `in_reply_to_id` is absent never
matches, never appears in the output and causes no error or panic; the code
(src/main.rs line 59) instead calls `unwrap` on the absent reply target and
panics as soon as such a descendant shares the root's author id: on root
(id 1, author A) with the single descendant (id 2, author A, no reply target)
the reconstruction panics instead of returning the one-element thread. -/
theorem c1_missing_reply_target_panics :
    fetch_thread rootPost [replyNoTarget] = .panic := by decide

/-- C2 counterexample: with root (id 1, author A) and descendants
(id 2, author A, reply-to 1) and (id 3, author A, reply-to 1), the
reconstructed thread is [1, 2, 3] but the third element's `in_reply_to_id` is
"1", not the id "2" of the immediately preceding element — refuting the claim
that every post after the first replies to its immediate predecessor. -/
theorem c2_not_immediately_preceding :
    fetch_thread rootPost [reply2, reply3flat] = .ok [rootPost, reply2, reply3flat] ∧
      ¬ reply3flat.in_reply_to_id = some reply2.id := by decide

/-- C2 (amended): whenever reconstruction returns a thread, every post after
the first has the root's author id and an `in_reply_to_id` equal to the id of
some post strictly earlier in the thread (the thread's last element at the
time its batch was matched) — not necessarily the immediately preceding one. -/
theorem c2_self_thread_shape (status : Status) (descendants out : List Status)
    (h : fetch_thread status descendants = .ok out) :
    ∃ rest, out = status :: rest ∧
      (∀ s ∈ rest, s.account.id = status.account.id) ∧
      repliesWithin [status] rest := by
  obtain ⟨rest, hout, _, hauth, hrw⟩ :=
    threadLoop_ok_spec (List.mem_singleton.mpr rfl) h
  exact ⟨rest, by simpa using hout, hauth, hrw⟩

/-- Witness for C2 (amended) at root (id 1) with the single chained reply
(id 2, reply-to 1). -/
theorem c2_self_thread_shape_witness :
    ∃ rest, ([rootPost, reply2] : List Status) = rootPost :: rest ∧
      (∀ s ∈ rest, s.account.id = rootPost.account.id) ∧
      repliesWithin [rootPost] rest :=
  c2_self_thread_shape rootPost [reply2] [rootPost, reply2] (by decide)

/-- C3: on root (id 1, author A) and descendants
[(id 2, A, reply-to 1), (id 3, A, reply-to 2), (id 4, B, reply-to 1)] the
reconstructor returns [1, 2, 3]: post 4 is excluded (wrong author) and post 3
is picked up on the second iteration even though no single pass over the
original order would have matched it after its predecessor. -/
theorem c3_chain_ordering :
    fetch_thread rootPost [reply2, reply3chain, reply4other] =
      .ok [rootPost, reply2, reply3chain] := by decide

/-- C4: the partition of each iteration keeps every matching descendant, in
input order, as one batch (the matched side is exactly the in-order filter of
the matching predicate, the unmatched side the in-order filter of its
negation); a non-empty batch is appended whole before the next iteration; and
on root (id 1, author A) with descendants [(id 2, A, reply-to 1),
(id 3, A, reply-to 1)] the output thread is [1, 2, 3]. -/
theorem c4_breadth_batching :
    (∀ (p : Status → Option Bool) (l matched unmatched : List Status),
        partitionPanic p l = some (matched, unmatched) →
        matched = l.filter (fun s => p s == some true) ∧
          unmatched = l.filter (fun s => p s == some false)) ∧
    (∀ (accountId : String) (fuel : Nat) (thread : List Status) (last : Status)
        (descendants matched remaining : List Status),
        partitionPanic (matchPred accountId last.id) descendants =
            some (matched, remaining) →
        matched ≠ [] →
        threadLoop accountId (fuel + 1) thread last descendants =
          threadLoop accountId fuel (thread ++ matched) (matched.getLastD last) remaining) ∧
    fetch_thread rootPost [reply2, reply3flat] = .ok [rootPost, reply2, reply3flat] := by
  refine ⟨fun p l matched unmatched h => partitionPanic_filter h, ?_, by decide⟩
  intro accountId fuel thread last descendants matched remaining hp hne
  simp only [threadLoop, hp]
  rw [if_neg (by simpa using hne)]

/-- Witness for C4 instantiating both universal parts: the partition of
[(id 2, A, reply-to 1), (id 3, A, reply-to 1), (id 4, B, reply-to 1)] against
author A and last id 1, and one unfolding of the loop on a non-empty batch. -/
theorem c4_breadth_batching_witness :
    (([reply2, reply3flat] : List Status) =
        List.filter (fun s => matchPred "A" "1" s == some true)
          [reply2, reply3flat, reply4other] ∧
      ([reply4other] : List Status) =
        List.filter (fun s => matchPred "A" "1" s == some false)
          [reply2, reply3flat, reply4other]) ∧
    threadLoop "A" 1 [rootPost] rootPost [reply2] =
      threadLoop "A" 0 [rootPost, reply2] (List.getLastD [reply2] rootPost) [] :=
  ⟨c4_breadth_batching.1 (matchPred "A" "1") [reply2, reply3flat, reply4other]
      [reply2, reply3flat] [reply4other] (by decide),
    c4_breadth_batching.2.1 "A" 0 [rootPost] rootPost [reply2] [reply2] []
      (by decide) (by decide)⟩

/-- C5: the reconstruction loop terminates — every continuing iteration
strictly shrinks the remaining pool, so `|descendants|` continuing iterations
(one extra fuel unit for the final breaking pass) can never be exhausted, and
`fetch_thread` never runs out of its `|descendants| + 1` fuel. -/
theorem c5_termination :
    (∀ (accountId : String) (fuel : Nat) (thread : List Status) (last : Status)
        (descendants : List Status), descendants.length < fuel →
        threadLoop accountId fuel thread last descendants ≠ .timeout) ∧
    ∀ (status : Status) (descendants : List Status),
      fetch_thread status descendants ≠ .timeout :=
  ⟨fun _ _ _ _ _ h => threadLoop_ne_timeout h,
    fun _ descendants => threadLoop_ne_timeout (Nat.lt_succ_self descendants.length)⟩

/-- Witness for C5 on a concrete root and descendant pool. -/
theorem c5_termination_witness :
    threadLoop "A" 4 [rootPost] rootPost [reply2, reply3chain, reply4other] ≠ .timeout :=
  c5_termination.1 "A" 4 [rootPost] rootPost [reply2, reply3chain, reply4other] (by decide)

/-- C6: whenever reconstruction returns a thread, the thread is non-empty and
its first element is the fetched root post, whatever the descendants were. -/
theorem c6_root_first (status : Status) (descendants out : List Status)
    (h : fetch_thread status descendants = .ok out) :
    out ≠ [] ∧ out.head? = some status := by
  obtain ⟨rest, hout, -, -, -⟩ := threadLoop_ok_spec (List.mem_singleton.mpr rfl) h
  subst hout
  exact ⟨by simp, by simp⟩

/-- Witness for C6 on the root with an empty descendant list. -/
theorem c6_root_first_witness :
    ([rootPost] : List Status) ≠ [] ∧ ([rootPost] : List Status).head? = some rootPost :=
  c6_root_first rootPost [] [rootPost] (by decide)

/-- C10: whenever reconstruction returns a thread, its tail is a
sub-permutation of the descendant list — each element is drawn from a distinct
input position, so no descendant occurrence is duplicated — and the thread has
at most `1 + |descendants|` elements. -/
theorem c10_no_duplication (status : Status) (descendants out : List Status)
    (h : fetch_thread status descendants = .ok out) :
    (∃ rest, out = status :: rest ∧ rest.Subperm descendants) ∧
      out.length ≤ 1 + descendants.length := by
  obtain ⟨rest, hout, hsub, -, -⟩ := threadLoop_ok_spec (List.mem_singleton.mpr rfl) h
  have hout' : out = status :: rest := by simpa using hout
  refine ⟨⟨rest, hout', hsub⟩, ?_⟩
  rw [hout', List.length_cons]
  have := hsub.length_le
  omega

/-- Witness for C10 on the chain-ordering input. -/
theorem c10_no_duplication_witness :
    (∃ rest, ([rootPost, reply2, reply3chain] : List Status) = rootPost :: rest ∧
        rest.Subperm [reply2, reply3chain, reply4other]) ∧
      ([rootPost, reply2, reply3chain] : List Status).length ≤
        1 + ([reply2, reply3chain, reply4other] : List Status).length :=
  c10_no_duplication rootPost [reply2, reply3chain, reply4other]
    [rootPost, reply2, reply3chain] (by decide)

/-- C7: the fetcher returns the decoded (post, context) pair exactly when both
requests succeed and both payloads decode; in every other case it returns a
single error value and no pair. -/
theorem c7_fetch_pair {E R : Type} (sendStatus sendContext : Except E R)
    (decodeStatus : R → Except E Status) (decodeContext : R → Except E Context) :
    (∀ p, fetch_status_and_context sendStatus sendContext decodeStatus decodeContext = .ok p ↔
        ∃ s c, sendStatus = .ok s ∧ sendContext = .ok c ∧
          decodeStatus s = .ok p.1 ∧ decodeContext c = .ok p.2) ∧
    ((∃ e, fetch_status_and_context sendStatus sendContext decodeStatus decodeContext =
        .error e) ↔
      ¬ ∃ s c ps cs, sendStatus = .ok s ∧ sendContext = .ok c ∧
          decodeStatus s = .ok ps ∧ decodeContext c = .ok cs) := by
  cases sendStatus with
  | error e => simp [fetch_status_and_context]
  | ok s =>
    cases sendContext with
    | error e => simp [fetch_status_and_context]
    | ok c =>
      cases hds : decodeStatus s with
      | error e => simp [fetch_status_and_context, hds]
      | ok sj =>
        cases hdc : decodeContext c with
        | error e => simp [fetch_status_and_context, hds, hdc]
        | ok cj =>
          refine ⟨?_, by simp [fetch_status_and_context, hds, hdc]⟩
          rintro ⟨p1, p2⟩
          simp only [fetch_status_and_context, hds, hdc]
          constructor
          · intro h
            injection h with h
            injection h with h1 h2
            subst h1
            subst h2
            exact ⟨s, c, rfl, rfl, hds, hdc⟩
          · rintro ⟨s', c', hs', hc', h1, h2⟩
            injection hs' with hs'
            subst hs'
            injection hc' with hc'
            subst hc'
            rw [hds] at h1
            rw [hdc] at h2
            injection h1 with h1
            injection h2 with h2
            subst h1
            subst h2
            rfl

/-- Witness for C7: a successful round trip on concrete request and decode
outcomes. -/
theorem c7_fetch_pair_witness :
    fetch_status_and_context (E := String) (R := Nat) (.ok 0) (.ok 1)
        (fun _ => .ok rootPost) (fun _ => .ok ⟨[rootPost]⟩) =
      .ok (rootPost, ⟨[rootPost]⟩) :=
  ((c7_fetch_pair (E := String) (R := Nat) (.ok 0) (.ok 1)
        (fun _ => .ok rootPost) (fun _ => .ok ⟨[rootPost]⟩)).1
      (rootPost, ⟨[rootPost]⟩)).mpr ⟨0, 1, rfl, rfl, rfl, rfl⟩

/-- C8 counterexample: route parameters that parse with both fields absent do
not receive the default fallbacks — the view's resource closure hits `unwrap`
on `None` (modelled as `none`) instead of proceeding with
("mastodon.social", "1"). -/
theorem c8_absent_params_panic :
    threadsFetchArgs (E := Unit) (.ok ⟨none, none⟩) = none ∧
      threadsFetchArgs (E := Unit) (.ok ⟨none, none⟩) ≠ some ("mastodon.social", "1") := by
  decide

/-- C8 (amended): the default fallbacks id = "1", host = "mastodon.social"
apply exactly when the route-parameter result is malformed (an `Err`); when
the parameters parse, the view proceeds with whatever fields are present and
panics on an absent field rather than substituting a default. -/
theorem c8_defaults_on_malformed_only :
    (∀ (E : Type) (e : E), threadsFetchArgs (E := E) (.error e) =
        some ("mastodon.social", "1")) ∧
    (∀ (E : Type) (h i : String), threadsFetchArgs (E := E) (.ok ⟨some h, some i⟩) =
        some (h, i)) ∧
    (∀ (E : Type) (i : String), threadsFetchArgs (E := E) (.ok ⟨none, some i⟩) = none) ∧
    (∀ (E : Type) (h : String), threadsFetchArgs (E := E) (.ok ⟨some h, none⟩) = none) :=
  ⟨fun _ _ => rfl, fun _ _ _ => rfl, fun _ _ => rfl, fun _ _ => rfl⟩

/-- C9: the URL interpreter accepts
`https://mastodon.social/@user/110000000001` (navigating with host
mastodon.social and id 110000000001), rejects
`https://mastodon.social/@user/abc123`, and in general triggers navigation on
a parsed URL exactly when the final path segment consists entirely of decimal
digits. -/
theorem c9_url_interpreter :
    homeEffect "https://mastodon.social/@user/110000000001" =
        some ("mastodon.social", "110000000001") ∧
    homeEffect "https://mastodon.social/@user/abc123" = none ∧
    (∀ (u host : String) (segments : List String),
        parseHttpsUrl u = some (host, segments) →
        ((homeEffect u).isSome ↔
          (segments.getLastD "").toList.all (fun c => c.isDigit) = true)) := by
  refine ⟨by decide, by decide, ?_⟩
  intro u host segments hp
  simp only [homeEffect, hp]
  rw [not_any_not_eq_all]
  cases hb : (segments.getLastD "").toList.all (fun c => c.isDigit) with
  | true => simp [hb]
  | false => simp [hb]

/-- Witness for C9's universal part at the accepted example URL. -/
theorem c9_url_interpreter_witness :
    (homeEffect "https://mastodon.social/@user/110000000001").isSome ↔
      ((["@user", "110000000001"] : List String).getLastD "").toList.all
          (fun c => c.isDigit) = true :=
  c9_url_interpreter.2.2 "https://mastodon.social/@user/110000000001"
    "mastodon.social" ["@user", "110000000001"] (by decide)

end Merezhka
